import Mathlib

/-!
# Verification of the VQ-CPC core (`model.py`)

Shallow embedding of the two numerical subsystems of the repository:

* `VQEmbeddingEMA.forward` — grouped vector quantization with an EMA codebook
  (nearest-neighbour assignment, straight-through output, EMA count/weight
  updates with Laplace smoothing, commitment loss, perplexity);
* `CPCLoss.forward` — contrastive predictive coding loss (negative-sampling
  index construction, causal mask generation and caching, per-horizon
  cross-entropy and accuracy).

Exact arithmetic (`ℚ` for the algebraic part of the quantizer, `ℝ` where the source
computes with `log`/`exp`/`sqrt`) replaces floating point; tensors become
`Fin`-indexed functions; the shape/`view`/`permute` index arithmetic of the source
is modelled explicitly.
-/

namespace VQCPC

/-! ## First-minimum argmin (torch.argmin returns the first minimal index) -/

/-- Index of the first minimum of `f` among `0, 1, …, n`
(`torch.argmin` semantics: on ties the lowest index is returned). -/
def argminAux {α : Type*} [LinearOrder α] (f : ℕ → α) : ℕ → ℕ
  | 0 => 0
  | n + 1 => if f (n + 1) < f (argminAux f n) then n + 1 else argminAux f n

theorem argminAux_le {α : Type*} [LinearOrder α] (f : ℕ → α) (n : ℕ) :
    argminAux f n ≤ n := by
  induction n with
  | zero => simp [argminAux]
  | succ n ih =>
    unfold argminAux
    split
    · exact le_refl _
    · exact Nat.le_succ_of_le ih

theorem argminAux_min {α : Type*} [LinearOrder α] (f : ℕ → α) (n : ℕ) :
    ∀ i ≤ n, f (argminAux f n) ≤ f i := by
  induction n with
  | zero =>
    intro i hi
    interval_cases i
    simp [argminAux]
  | succ n ih =>
    intro i hi
    unfold argminAux
    rcases Nat.lt_succ_iff_lt_or_eq.mp (Nat.lt_succ_of_le hi) with h | h
    · split
      · exact le_trans (le_of_lt (by assumption)) (ih i (Nat.lt_succ_iff.mp h))
      · exact ih i (Nat.lt_succ_iff.mp h)
    · subst h
      split
      · exact le_refl _
      · exact le_of_not_lt (by assumption)

theorem argminAux_first {α : Type*} [LinearOrder α] (f : ℕ → α) (n : ℕ) :
    ∀ j < argminAux f n, f (argminAux f n) < f j := by
  induction n with
  | zero => simp [argminAux]
  | succ n ih =>
    intro j hj
    unfold argminAux at hj ⊢
    split
    · rename_i hlt
      have hj' : j ≤ n := by
        simp only [if_pos hlt] at hj
        omega
      exact lt_of_lt_of_le hlt (argminAux_min f n j hj')
    · rename_i hlt
      simp only [if_neg hlt] at hj
      exact ih j hj

/-- Index of the first maximum of `f` among `0, 1, …, n`
(`torch.argmax` semantics: on ties the lowest index is returned). -/
def argmaxAux {α : Type*} [LinearOrder α] (f : ℕ → α) : ℕ → ℕ
  | 0 => 0
  | n + 1 => if f (argmaxAux f n) < f (n + 1) then n + 1 else argmaxAux f n

/-! ## Squared Euclidean distance and nearest codebook entry -/

/-- Squared Euclidean distance between two `D`-dimensional vectors.
`torch.cdist` computes the (monotone) square root of this, so argmin and
tie-breaking over `sqDist` coincide with argmin over the Euclidean distance. -/
def sqDist {D : ℕ} (v w : Fin D → ℚ) : ℚ := ∑ d, (v d - w d) ^ 2

theorem sqDist_nonneg {D : ℕ} (v w : Fin D → ℚ) : 0 ≤ sqDist v w :=
  Finset.sum_nonneg fun d _ => sq_nonneg _

theorem sqDist_self {D : ℕ} (v : Fin D → ℚ) : sqDist v v = 0 := by
  simp [sqDist]

theorem eq_of_sqDist_eq_zero {D : ℕ} {v w : Fin D → ℚ} (h : sqDist v w = 0) :
    v = w := by
  funext d
  have hz := (Finset.sum_eq_zero_iff_of_nonneg
    (fun i (_ : i ∈ Finset.univ) => sq_nonneg (v i - w i))).mp h d (Finset.mem_univ d)
  have : v d - w d = 0 := by
    have := sq_eq_zero_iff.mp hz
    exact this
  linarith

/-- Model of `torch.argmin(torch.cdist(x_flat, embedding), dim=-1)` for one input
vector: the index of the first codebook entry at minimal distance. -/
def nearestIdx {M D : ℕ} (hM : 0 < M) (cb : Fin M → Fin D → ℚ)
    (v : Fin D → ℚ) : Fin M :=
  ⟨argminAux (fun k => sqDist v (cb ⟨k % M, Nat.mod_lt k hM⟩)) (M - 1) % M,
    Nat.mod_lt _ hM⟩

theorem nearestIdx_val {M D : ℕ} (hM : 0 < M) (cb : Fin M → Fin D → ℚ)
    (v : Fin D → ℚ) :
    (nearestIdx hM cb v).val
      = argminAux (fun k => sqDist v (cb ⟨k % M, Nat.mod_lt k hM⟩)) (M - 1) := by
  have hle := argminAux_le (fun k => sqDist v (cb ⟨k % M, Nat.mod_lt k hM⟩)) (M - 1)
  have hlt : argminAux (fun k => sqDist v (cb ⟨k % M, Nat.mod_lt k hM⟩)) (M - 1) < M := by
    omega
  simp [nearestIdx, Nat.mod_eq_of_lt hlt]

theorem nearestIdx_min {M D : ℕ} (hM : 0 < M) (cb : Fin M → Fin D → ℚ)
    (v : Fin D → ℚ) (m : Fin M) :
    sqDist v (cb (nearestIdx hM cb v)) ≤ sqDist v (cb m) := by
  set g : ℕ → ℚ := fun k => sqDist v (cb ⟨k % M, Nat.mod_lt k hM⟩) with hg
  have h1 : sqDist v (cb (nearestIdx hM cb v)) = g (nearestIdx hM cb v).val := by
    have : (⟨(nearestIdx hM cb v).val % M, Nat.mod_lt _ hM⟩ : Fin M)
        = nearestIdx hM cb v := by
      apply Fin.ext
      simp [Nat.mod_eq_of_lt (nearestIdx hM cb v).isLt]
    simp [hg, this]
  have h2 : sqDist v (cb m) = g m.val := by
    have : (⟨m.val % M, Nat.mod_lt _ hM⟩ : Fin M) = m := by
      apply Fin.ext
      simp [Nat.mod_eq_of_lt m.isLt]
    simp [hg, this]
  rw [h1, h2, nearestIdx_val]
  exact argminAux_min g (M - 1) m.val (by have := m.isLt; omega)

theorem nearestIdx_first {M D : ℕ} (hM : 0 < M) (cb : Fin M → Fin D → ℚ)
    (v : Fin D → ℚ) (j : Fin M) (hj : j < nearestIdx hM cb v) :
    sqDist v (cb (nearestIdx hM cb v)) < sqDist v (cb j) := by
  set g : ℕ → ℚ := fun k => sqDist v (cb ⟨k % M, Nat.mod_lt k hM⟩) with hg
  have h1 : sqDist v (cb (nearestIdx hM cb v)) = g (nearestIdx hM cb v).val := by
    have : (⟨(nearestIdx hM cb v).val % M, Nat.mod_lt _ hM⟩ : Fin M)
        = nearestIdx hM cb v := by
      apply Fin.ext
      simp [Nat.mod_eq_of_lt (nearestIdx hM cb v).isLt]
    simp [hg, this]
  have h2 : sqDist v (cb j) = g j.val := by
    have : (⟨j.val % M, Nat.mod_lt _ hM⟩ : Fin M) = j := by
      apply Fin.ext
      simp [Nat.mod_eq_of_lt j.isLt]
    simp [hg, this]
  rw [h1, h2, nearestIdx_val]
  have hj' : j.val < argminAux g (M - 1) := by
    have hjv : j.val < (nearestIdx hM cb v).val := hj
    rw [nearestIdx_val hM cb v, ← hg] at hjv
    exact hjv
  exact argminAux_first g (M - 1) j.val hj'

/-! ## Tensor layout of `VQEmbeddingEMA.forward`

The input `x` has shape `(B, C, L)` with `C = N * D`; the source runs
`x.view(B, N, D, L).permute(1, 0, 3, 2)` producing shape `(N, B, L, D)`, and
at the end `quantized.permute(1, 0, 3, 2).reshape(B, C, L)`. -/

/-- Group index of channel `c` under the row-major `view(B, N, D, L)`:
channel `c` belongs to group `c / D`. -/
def groupOf {N D : ℕ} (c : Fin (N * D)) : Fin N :=
  ⟨c.val / D, by
    have hc := c.isLt
    have hD : 0 < D := by
      rcases Nat.eq_zero_or_pos D with h0 | h0
      · subst h0; omega
      · exact h0
    exact (Nat.div_lt_iff_lt_mul hD).mpr hc⟩

/-- In-group coordinate of channel `c` under the row-major `view(B, N, D, L)`:
channel `c` is coordinate `c % D` of its group. -/
def dimOf {N D : ℕ} (c : Fin (N * D)) : Fin D :=
  ⟨c.val % D, by
    have hc := c.isLt
    have hD : 0 < D := by
      rcases Nat.eq_zero_or_pos D with h0 | h0
      · subst h0; omega
      · exact h0
    exact Nat.mod_lt _ hD⟩

/-- Flat channel index of group `n`, coordinate `d`. -/
def chanOf {N D : ℕ} (n : Fin N) (d : Fin D) : Fin (N * D) :=
  ⟨n.val * D + d.val, by
    calc n.val * D + d.val < n.val * D + D := by omega
    _ = (n.val + 1) * D := by ring
    _ ≤ N * D := Nat.mul_le_mul_right D n.isLt⟩

theorem groupOf_chanOf {N D : ℕ} (n : Fin N) (d : Fin D) :
    groupOf (chanOf n d) = n := by
  apply Fin.ext
  show (n.val * D + d.val) / D = n.val
  have hd := d.isLt
  have hD : 0 < D := by omega
  rw [Nat.mul_comm n.val D, Nat.mul_add_div hD, Nat.div_eq_of_lt hd, Nat.add_zero]

theorem dimOf_chanOf {N D : ℕ} (n : Fin N) (d : Fin D) :
    dimOf (chanOf n d) = d := by
  apply Fin.ext
  show (n.val * D + d.val) % D = d.val
  have hd := d.isLt
  rw [Nat.mul_comm n.val D, Nat.mul_add_mod, Nat.mod_eq_of_lt hd]

theorem chanOf_eta {N D : ℕ} (c : Fin (N * D)) :
    chanOf (groupOf c) (dimOf c) = c := by
  apply Fin.ext
  show c.val / D * D + c.val % D = c.val
  exact Nat.div_add_mod' c.val D

/-- The grouped view of the input: `x.view(B, N, D, L).permute(1, 0, 3, 2)`
read at `(n, b, l, d)`. -/
def xGrouped {B N D L : ℕ} (x : Fin B → Fin (N * D) → Fin L → ℚ)
    (n : Fin N) (b : Fin B) (l : Fin L) (d : Fin D) : ℚ :=
  x b (chanOf n d) l

/-- Line 29, `indices = torch.argmin(torch.cdist(x_flat, self.embedding), dim=-1)`:
the nearest-entry assignment of each input vector in each group. -/
def vqIndices {B N M D L : ℕ} (hM : 0 < M)
    (emb : Fin N → Fin M → Fin D → ℚ)
    (x : Fin B → Fin (N * D) → Fin L → ℚ)
    (n : Fin N) (b : Fin B) (l : Fin L) : Fin M :=
  nearestIdx hM (emb n) (fun d => xGrouped x n b l d)

/-- The gathered quantized value, in the grouped `(N, B, L, D)` layout:
`torch.gather(self.embedding, 1, indices…)` -/
def quantizedGrouped {B N M D L : ℕ} (hM : 0 < M)
    (emb : Fin N → Fin M → Fin D → ℚ)
    (x : Fin B → Fin (N * D) → Fin L → ℚ)
    (n : Fin N) (b : Fin B) (l : Fin L) (d : Fin D) : ℚ :=
  emb n (vqIndices hM emb x n b l) d

/-- The returned quantized tensor in the original `(B, C, L)` input layout, with
the straight-through expression `quantized = x + (quantized - x).detach()`
(valuewise, `.detach` is the identity) and the final
`permute(1, 0, 3, 2).reshape(B, C, L)`. -/
def vqForwardQuantized {B N M D L : ℕ} (hM : 0 < M)
    (emb : Fin N → Fin M → Fin D → ℚ)
    (x : Fin B → Fin (N * D) → Fin L → ℚ)
    (b : Fin B) (c : Fin (N * D)) (l : Fin L) : ℚ :=
  xGrouped x (groupOf c) b l (dimOf c)
    + (quantizedGrouped hM emb x (groupOf c) b l (dimOf c)
        - xGrouped x (groupOf c) b l (dimOf c))

/-- Model of `F.mse_loss` over the grouped `(N, B, L, D)` tensors: mean of squared
differences over all `N·B·L·D` entries. -/
def mseLoss {B N D L : ℕ}
    (a c : Fin N → Fin B → Fin L → Fin D → ℚ) : ℚ :=
  (∑ n, ∑ b, ∑ l, ∑ d, (a n b l d - c n b l d) ^ 2) / (N * B * L * D)

/-- Line 47, `loss = self.commitment_cost * F.mse_loss(x, quantized.detach())`. -/
def vqCommitmentLoss {B N M D L : ℕ} (hM : 0 < M) (commitment_cost : ℚ)
    (emb : Fin N → Fin M → Fin D → ℚ)
    (x : Fin B → Fin (N * D) → Fin L → ℚ) : ℚ :=
  commitment_cost * mseLoss (fun n b l d => xGrouped x n b l d)
    (quantizedGrouped hM emb x)

/-! ## Training-mode EMA update (`if self.training:` branch) -/

/-- Persistent state of `VQEmbeddingEMA`: the registered buffers
`embedding`, `ema_count`, `ema_weight` of shapes `(N, M, D)`, `(N, M)`,
`(N, M, D)`. -/
structure VQState (N M D : ℕ) where
  embedding : Fin N → Fin M → Fin D → ℚ
  ema_count : Fin N → Fin M → ℚ
  ema_weight : Fin N → Fin M → Fin D → ℚ

/-- Line 36, `torch.sum(encodings, dim=1)`: how many input vectors of group `n` were
assigned to entry `m` this step (sum of one-hot rows). -/
def stepCounts {B M L : ℕ} (idx : Fin B → Fin L → Fin M) (m : Fin M) : ℚ :=
  ∑ b, ∑ l, if idx b l = m then (1 : ℚ) else 0

theorem stepCounts_nonneg {B M L : ℕ} (idx : Fin B → Fin L → Fin M)
    (m : Fin M) : 0 ≤ stepCounts idx m := by
  refine Finset.sum_nonneg fun b _ => Finset.sum_nonneg fun l _ => ?_
  split <;> norm_num

theorem sum_stepCounts {B M L : ℕ} (idx : Fin B → Fin L → Fin M) :
    ∑ m, stepCounts idx m = (B * L : ℚ) := by
  unfold stepCounts
  rw [Finset.sum_comm]
  have h1 : ∀ b : Fin B, ∑ m : Fin M, ∑ l, (if idx b l = m then (1 : ℚ) else 0)
      = (L : ℚ) := by
    intro b
    rw [Finset.sum_comm]
    have h2 : ∀ l : Fin L, ∑ m : Fin M, (if idx b l = m then (1 : ℚ) else 0)
        = 1 := by
      intro l
      rw [Finset.sum_ite_eq]
      simp
    rw [Finset.sum_congr rfl fun l _ => h2 l]
    simp
  rw [Finset.sum_congr rfl fun b _ => h1 b]
  simp [Finset.sum_const, mul_comm]

/-- Line 36: `ema_count = decay * ema_count + (1 - decay) * sum(encodings, 1)`. -/
def emaCountUpdate {B N M D L : ℕ} (hM : 0 < M) (decay : ℚ)
    (st : VQState N M D) (x : Fin B → Fin (N * D) → Fin L → ℚ)
    (n : Fin N) (m : Fin M) : ℚ :=
  decay * st.ema_count n m
    + (1 - decay) * stepCounts (vqIndices hM st.embedding x n) m

/-- Lines 38–39, per group: `n = sum(ema_count)`;
`ema_count = (ema_count + ε) / (n + M * ε) * n` (Laplace smoothing). -/
def laplaceNorm {M : ℕ} (epsilon : ℚ) (cnt : Fin M → ℚ) (m : Fin M) : ℚ :=
  (cnt m + epsilon) / ((∑ i, cnt i) + M * epsilon) * (∑ i, cnt i)

/-- Line 41: `dw = torch.bmm(encodings.transpose(1, 2), x_flat)`: per entry,
the sum of the input vectors assigned to it. -/
def dwUpdate {B N M D L : ℕ} (hM : 0 < M)
    (st : VQState N M D) (x : Fin B → Fin (N * D) → Fin L → ℚ)
    (n : Fin N) (m : Fin M) (d : Fin D) : ℚ :=
  ∑ b, ∑ l, (if vqIndices hM st.embedding x n b l = m then (1 : ℚ) else 0)
    * xGrouped x n b l d

/-- Line 42: `ema_weight = decay * ema_weight + (1 - decay) * dw`. -/
def emaWeightUpdate {B N M D L : ℕ} (hM : 0 < M) (decay : ℚ)
    (st : VQState N M D) (x : Fin B → Fin (N * D) → Fin L → ℚ)
    (n : Fin N) (m : Fin M) (d : Fin D) : ℚ :=
  decay * st.ema_weight n m d + (1 - decay) * dwUpdate hM st x n m d

/-- The complete training-mode buffer update of `VQEmbeddingEMA.forward`
(lines 36–44), ending with `embedding = ema_weight / ema_count.unsqueeze(-1)`. -/
def vqTrainUpdate {B N M D L : ℕ} (hM : 0 < M) (decay epsilon : ℚ)
    (st : VQState N M D) (x : Fin B → Fin (N * D) → Fin L → ℚ) :
    VQState N M D where
  ema_count := fun n m => laplaceNorm epsilon (emaCountUpdate hM decay st x n) m
  ema_weight := emaWeightUpdate hM decay st x
  embedding := fun n m d => emaWeightUpdate hM decay st x n m d
    / laplaceNorm epsilon (emaCountUpdate hM decay st x n) m

/-! ## Properties of the Laplace renormalization -/

theorem laplaceNorm_pos {M : ℕ} (epsilon : ℚ) (cnt : Fin M → ℚ)
    (hε : 0 < epsilon) (hc : ∀ m, 0 ≤ cnt m) (hs : 0 < ∑ i, cnt i)
    (m : Fin M) : 0 < laplaceNorm epsilon cnt m := by
  unfold laplaceNorm
  have hnum : 0 < cnt m + epsilon := by have := hc m; linarith
  have hden : 0 < (∑ i, cnt i) + M * epsilon := by
    have hMe : (0 : ℚ) ≤ M * epsilon := mul_nonneg (by positivity) (le_of_lt hε)
    linarith
  exact mul_pos (div_pos hnum hden) hs

theorem sum_laplaceNorm {M : ℕ} (epsilon : ℚ) (cnt : Fin M → ℚ)
    (h : (∑ i, cnt i) + M * epsilon ≠ 0) :
    ∑ m, laplaceNorm epsilon cnt m = ∑ m, cnt m := by
  unfold laplaceNorm
  rw [← Finset.sum_mul, ← Finset.sum_div]
  have hsum : ∑ m : Fin M, (cnt m + epsilon) = (∑ m, cnt m) + M * epsilon := by
    rw [Finset.sum_add_distrib, Finset.sum_const, Finset.card_univ,
      Fintype.card_fin, nsmul_eq_mul]
  rw [hsum, div_self h, one_mul]

theorem sum_emaCountUpdate {B N M D L : ℕ} (hM : 0 < M) (decay : ℚ)
    (st : VQState N M D) (x : Fin B → Fin (N * D) → Fin L → ℚ) (n : Fin N) :
    ∑ m, emaCountUpdate hM decay st x n m
      = decay * (∑ m, st.ema_count n m) + (1 - decay) * (B * L : ℚ) := by
  unfold emaCountUpdate
  rw [Finset.sum_add_distrib, ← Finset.mul_sum, ← Finset.mul_sum,
    sum_stepCounts]

theorem emaCountUpdate_nonneg {B N M D L : ℕ} (hM : 0 < M) (decay : ℚ)
    (st : VQState N M D) (x : Fin B → Fin (N * D) → Fin L → ℚ)
    (hd0 : 0 ≤ decay) (hd1 : decay ≤ 1) (hc : ∀ n m, 0 ≤ st.ema_count n m)
    (n : Fin N) (m : Fin M) : 0 ≤ emaCountUpdate hM decay st x n m := by
  unfold emaCountUpdate
  have h1 := stepCounts_nonneg (vqIndices hM st.embedding x n) m
  have h2 := hc n m
  have h3 : 0 ≤ decay * st.ema_count n m := mul_nonneg hd0 h2
  have h4 : 0 ≤ (1 - decay) * stepCounts (vqIndices hM st.embedding x n) m :=
    mul_nonneg (by linarith) h1
  linarith

/-- Claim C2 — after every training-mode forward call of the quantizer, every
EMA usage count is strictly positive (so the codebook recomputation never
divides by zero), and the codebook equals `ema_weight / ema_count`
elementwise for every group and entry. -/
theorem C2_counts_positive_and_codebook_ratio
    {B N M D L : ℕ} (hM : 0 < M) (decay epsilon : ℚ)
    (st : VQState N M D) (x : Fin B → Fin (N * D) → Fin L → ℚ)
    (hd0 : 0 ≤ decay) (hd1 : decay < 1) (hε : 0 < epsilon)
    (hc : ∀ n m, 0 ≤ st.ema_count n m) (hB : 0 < B) (hL : 0 < L) :
    (∀ n m, 0 < (vqTrainUpdate hM decay epsilon st x).ema_count n m) ∧
    (∀ n m d, (vqTrainUpdate hM decay epsilon st x).embedding n m d
      = (vqTrainUpdate hM decay epsilon st x).ema_weight n m d
        / (vqTrainUpdate hM decay epsilon st x).ema_count n m) := by
  constructor
  · intro n m
    show 0 < laplaceNorm epsilon (emaCountUpdate hM decay st x n) m
    apply laplaceNorm_pos epsilon _ hε
      (emaCountUpdate_nonneg hM decay st x hd0 (le_of_lt hd1) hc n)
    rw [sum_emaCountUpdate]
    have hS : 0 ≤ ∑ i, st.ema_count n i := Finset.sum_nonneg fun i _ => hc n i
    have hBL : (0 : ℚ) < (B * L : ℚ) := by exact_mod_cast Nat.mul_pos hB hL
    have h5 : 0 < (1 - decay) * (B * L : ℚ) := mul_pos (by linarith) hBL
    have h6 : 0 ≤ decay * ∑ i, st.ema_count n i := mul_nonneg hd0 hS
    linarith
  · intro n m d
    rfl

/-- A concrete all-zero quantizer state with `N = 1` group, `M = 2` entries,
`D = 1` dimension, used to instantiate hypothesis-bearing theorems. -/
def vqStateZ : VQState 1 2 1 :=
  ⟨fun _ _ _ => 0, fun _ _ => 0, fun _ _ _ => 0⟩

/-- A concrete all-zero quantizer input with `B = 1`, `C = 1·1`, `L = 1`. -/
def xZ : Fin 1 → Fin (1 * 1) → Fin 1 → ℚ := fun _ _ _ => 0

/-- Closed witness instantiating `C2_counts_positive_and_codebook_ratio`. -/
theorem C2_witness :
    ((0:ℚ) ≤ 999/1000 ∧ (999:ℚ)/1000 < 1 ∧ (0:ℚ) < 1/100000) ∧
    ((∀ n m, 0 < (@vqTrainUpdate 1 1 2 1 1 (Nat.succ_pos 1)
        (999/1000) (1/100000) vqStateZ xZ).ema_count n m) ∧
    (∀ n m d, (@vqTrainUpdate 1 1 2 1 1 (Nat.succ_pos 1)
        (999/1000) (1/100000) vqStateZ xZ).embedding n m d
      = (@vqTrainUpdate 1 1 2 1 1 (Nat.succ_pos 1)
        (999/1000) (1/100000) vqStateZ xZ).ema_weight n m d
        / (@vqTrainUpdate 1 1 2 1 1 (Nat.succ_pos 1)
        (999/1000) (1/100000) vqStateZ xZ).ema_count n m)) :=
  ⟨⟨by norm_num, by norm_num, by norm_num⟩,
    C2_counts_positive_and_codebook_ratio (Nat.succ_pos 1)
      (999/1000) (1/100000) vqStateZ xZ
      (by norm_num) (by norm_num) (by norm_num)
      (fun _ _ => le_refl 0) (Nat.succ_pos 0) (Nat.succ_pos 0)⟩

/-- Claim C6 — for every training-mode forward call and every group, the
Laplace renormalization (lines 38–39) preserves the per-group total count:
the total immediately after renormalization equals the total immediately
before it (exactly, in exact arithmetic). -/
theorem C6_renormalization_preserves_total
    {B N M D L : ℕ} (hM : 0 < M) (decay epsilon : ℚ)
    (st : VQState N M D) (x : Fin B → Fin (N * D) → Fin L → ℚ)
    (hd0 : 0 ≤ decay) (hd1 : decay ≤ 1) (hε : 0 < epsilon)
    (hc : ∀ n m, 0 ≤ st.ema_count n m) :
    ∀ n, ∑ m, (vqTrainUpdate hM decay epsilon st x).ema_count n m
      = ∑ m, emaCountUpdate hM decay st x n m := by
  intro n
  show ∑ m, laplaceNorm epsilon (emaCountUpdate hM decay st x n) m = _
  apply sum_laplaceNorm
  have h1 : 0 ≤ ∑ m, emaCountUpdate hM decay st x n m :=
    Finset.sum_nonneg fun m _ =>
      emaCountUpdate_nonneg hM decay st x hd0 hd1 hc n m
  have h2 : (0 : ℚ) < (M : ℚ) * epsilon :=
    mul_pos (by exact_mod_cast hM) hε
  linarith

/-- Closed witness instantiating `C6_renormalization_preserves_total`. -/
theorem C6_witness :
    ((0:ℚ) ≤ 999/1000 ∧ (999:ℚ)/1000 ≤ 1 ∧ (0:ℚ) < 1/100000) ∧
    (∀ n, ∑ m, (@vqTrainUpdate 1 1 2 1 1 (Nat.succ_pos 1)
        (999/1000) (1/100000) vqStateZ xZ).ema_count n m
      = ∑ m, @emaCountUpdate 1 1 2 1 1 (Nat.succ_pos 1) (999/1000)
        vqStateZ xZ n m) :=
  ⟨⟨by norm_num, by norm_num, by norm_num⟩,
    C6_renormalization_preserves_total (Nat.succ_pos 1)
      (999/1000) (1/100000) vqStateZ xZ
      (by norm_num) (by norm_num) (by norm_num) (fun _ _ => le_refl 0)⟩

/-! ## Nearest-entry assignment and eval-mode round trip -/

/-- Claim C3 — the returned quantized value at `(b, c, l)` (in the original
`(B, C, L)` input layout) equals the entry, selected by the assignment index,
of the codebook of channel group `c / D` as it stood at the start of the
call; that index attains the minimal (squared, hence also Euclidean)
distance to the input vector, and every strictly smaller index has strictly
larger distance (first-minimum tie-breaking). -/
theorem C3_quantized_is_first_nearest_entry
    {B N M D L : ℕ} (hM : 0 < M)
    (emb : Fin N → Fin M → Fin D → ℚ)
    (x : Fin B → Fin (N * D) → Fin L → ℚ)
    (b : Fin B) (c : Fin (N * D)) (l : Fin L) :
    vqForwardQuantized hM emb x b c l
      = emb (groupOf c) (vqIndices hM emb x (groupOf c) b l) (dimOf c)
    ∧ (∀ m, sqDist (fun d => xGrouped x (groupOf c) b l d)
          (emb (groupOf c) (vqIndices hM emb x (groupOf c) b l))
        ≤ sqDist (fun d => xGrouped x (groupOf c) b l d) (emb (groupOf c) m))
    ∧ (∀ j, j < vqIndices hM emb x (groupOf c) b l →
        sqDist (fun d => xGrouped x (groupOf c) b l d)
          (emb (groupOf c) (vqIndices hM emb x (groupOf c) b l))
        < sqDist (fun d => xGrouped x (groupOf c) b l d) (emb (groupOf c) j)) := by
  refine ⟨?_, ?_, ?_⟩
  · unfold vqForwardQuantized quantizedGrouped
    ring
  · intro m
    exact nearestIdx_min hM (emb (groupOf c)) _ m
  · intro j hj
    exact nearestIdx_first hM (emb (groupOf c)) _ j hj

/-- The single channel of the `N = 1`, `D = 1` concrete input. -/
def c0 : Fin (1 * 1) := ⟨0, Nat.succ_pos 0⟩

/-- Closed witness instantiating `C3_quantized_is_first_nearest_entry`. -/
theorem C3_witness :
    (0 < 2) ∧
    (vqForwardQuantized (Nat.succ_pos 1) vqStateZ.embedding xZ 0 c0 0
      = vqStateZ.embedding (groupOf c0)
          (vqIndices (Nat.succ_pos 1) vqStateZ.embedding xZ (groupOf c0) 0 0)
          (dimOf c0)
    ∧ (∀ m, sqDist (fun d => xGrouped xZ (groupOf c0) 0 0 d)
          (vqStateZ.embedding (groupOf c0)
            (vqIndices (Nat.succ_pos 1) vqStateZ.embedding xZ (groupOf c0) 0 0))
        ≤ sqDist (fun d => xGrouped xZ (groupOf c0) 0 0 d)
            (vqStateZ.embedding (groupOf c0) m))
    ∧ (∀ j, j < vqIndices (Nat.succ_pos 1) vqStateZ.embedding xZ (groupOf c0) 0 0 →
        sqDist (fun d => xGrouped xZ (groupOf c0) 0 0 d)
          (vqStateZ.embedding (groupOf c0)
            (vqIndices (Nat.succ_pos 1) vqStateZ.embedding xZ (groupOf c0) 0 0))
        < sqDist (fun d => xGrouped xZ (groupOf c0) 0 0 d)
            (vqStateZ.embedding (groupOf c0) j))) :=
  ⟨Nat.succ_pos 1,
    C3_quantized_is_first_nearest_entry (Nat.succ_pos 1)
      vqStateZ.embedding xZ 0 c0 0⟩

/-- Reading the returned `(B, C, L)` tensor back through the grouped view
recovers the gathered codebook vectors. -/
theorem xGrouped_vqForwardQuantized {B N M D L : ℕ} (hM : 0 < M)
    (emb : Fin N → Fin M → Fin D → ℚ)
    (x : Fin B → Fin (N * D) → Fin L → ℚ)
    (n : Fin N) (b : Fin B) (l : Fin L) (d : Fin D) :
    xGrouped (vqForwardQuantized hM emb x) n b l d
      = quantizedGrouped hM emb x n b l d := by
  show vqForwardQuantized hM emb x b (chanOf n d) l = _
  unfold vqForwardQuantized
  rw [groupOf_chanOf, dimOf_chanOf]
  ring

/-- If the input vector at `(n, b, l)` is exactly a codebook entry, the
gathered quantized vector equals the input vector (distance 0 wins). -/
theorem quantizedGrouped_entry {B N M D L : ℕ} (hM : 0 < M)
    (emb : Fin N → Fin M → Fin D → ℚ)
    (x : Fin B → Fin (N * D) → Fin L → ℚ)
    (n : Fin N) (b : Fin B) (l : Fin L) (i : Fin M)
    (h : (fun d => xGrouped x n b l d) = emb n i) (d : Fin D) :
    quantizedGrouped hM emb x n b l d = xGrouped x n b l d := by
  have h0 : sqDist (fun d => xGrouped x n b l d)
      (emb n (vqIndices hM emb x n b l)) = 0 := by
    have hle : sqDist (fun d => xGrouped x n b l d)
        (emb n (vqIndices hM emb x n b l))
        ≤ sqDist (fun d => xGrouped x n b l d) (emb n i) :=
      nearestIdx_min hM (emb n) (fun d => xGrouped x n b l d) i
    have hz : sqDist (fun d => xGrouped x n b l d) (emb n i) = 0 := by
      rw [← h]; exact sqDist_self _
    have hnn := sqDist_nonneg (fun d => xGrouped x n b l d)
      (emb n (vqIndices hM emb x n b l))
    linarith
  have heq := eq_of_sqDist_eq_zero h0
  show emb n (vqIndices hM emb x n b l) d = xGrouped x n b l d
  exact (congrFun heq d).symm

/-- If the input vector at `(n, b, l)` equals entry `i` and no
strictly-lower-indexed entry has the same value, the assignment index is `i`. -/
theorem vqIndices_entry_first {B N M D L : ℕ} (hM : 0 < M)
    (emb : Fin N → Fin M → Fin D → ℚ)
    (x : Fin B → Fin (N * D) → Fin L → ℚ)
    (n : Fin N) (b : Fin B) (l : Fin L) (i : Fin M)
    (h2 : (fun d => xGrouped x n b l d) = emb n i)
    (h3 : ∀ j, j < i → emb n j ≠ emb n i) :
    vqIndices hM emb x n b l = i := by
  have hk : emb n (vqIndices hM emb x n b l) = fun d => xGrouped x n b l d :=
    funext fun d => quantizedGrouped_entry hM emb x n b l i h2 d
  rcases lt_trichotomy (vqIndices hM emb x n b l) i with h | h | h
  · exact absurd (hk.trans h2) (h3 _ h)
  · exact h
  · exfalso
    have hfirst := nearestIdx_first hM (emb n) (fun d => xGrouped x n b l d) i h
    have hzero : sqDist (fun d => xGrouped x n b l d) (emb n i) = 0 := by
      rw [← h2]; exact sqDist_self _
    have hnn := sqDist_nonneg (fun d => xGrouped x n b l d)
      (emb n (vqIndices hM emb x n b l))
    rw [hzero] at hfirst
    exact absurd hfirst (not_lt.mpr hnn)

/-- Claim C10, amended — with a frozen codebook the quantizer is idempotent on
values (re-running it on its own quantized output returns that output
unchanged); an input all of whose vectors are codebook entries is returned
unchanged with commitment loss exactly 0; and the assignment index of a
vector equal to entry `i` is `i` provided no strictly-lower-indexed entry of
that group holds the same value (first-minimum tie-breaking). -/
theorem C10_amended_frozen_codebook_idempotent
    {B N M D L : ℕ} (hM : 0 < M) (commitment_cost : ℚ)
    (emb : Fin N → Fin M → Fin D → ℚ)
    (x : Fin B → Fin (N * D) → Fin L → ℚ)
    (n : Fin N) (b : Fin B) (l : Fin L) (i : Fin M)
    (hx : ∀ n b l, ∃ i, (fun d => xGrouped x n b l d) = emb n i)
    (h2 : (fun d => xGrouped x n b l d) = emb n i)
    (h3 : ∀ j, j < i → emb n j ≠ emb n i) :
    (∀ (y : Fin B → Fin (N * D) → Fin L → ℚ),
      vqForwardQuantized hM emb (vqForwardQuantized hM emb y)
        = vqForwardQuantized hM emb y)
    ∧ vqForwardQuantized hM emb x = x
    ∧ vqCommitmentLoss hM commitment_cost emb x = 0
    ∧ vqIndices hM emb x n b l = i := by
  refine ⟨?_, ?_, ?_, vqIndices_entry_first hM emb x n b l i h2 h3⟩
  · intro y
    funext b' c' l'
    have hentry : (fun d => xGrouped (vqForwardQuantized hM emb y)
        (groupOf c') b' l' d)
        = emb (groupOf c') (vqIndices hM emb y (groupOf c') b' l') := by
      funext d
      exact xGrouped_vqForwardQuantized hM emb y (groupOf c') b' l' d
    show xGrouped (vqForwardQuantized hM emb y) (groupOf c') b' l' (dimOf c')
        + (quantizedGrouped hM emb (vqForwardQuantized hM emb y)
            (groupOf c') b' l' (dimOf c')
          - xGrouped (vqForwardQuantized hM emb y) (groupOf c') b' l' (dimOf c'))
        = vqForwardQuantized hM emb y b' c' l'
    rw [quantizedGrouped_entry hM emb (vqForwardQuantized hM emb y)
      (groupOf c') b' l' _ hentry (dimOf c')]
    have : xGrouped (vqForwardQuantized hM emb y) (groupOf c') b' l' (dimOf c')
        = vqForwardQuantized hM emb y b' c' l' := by
      show vqForwardQuantized hM emb y b' (chanOf (groupOf c') (dimOf c')) l' = _
      rw [chanOf_eta]
    rw [this]
    ring
  · funext b' c' l'
    obtain ⟨i', hi'⟩ := hx (groupOf c') b' l'
    show xGrouped x (groupOf c') b' l' (dimOf c')
        + (quantizedGrouped hM emb x (groupOf c') b' l' (dimOf c')
          - xGrouped x (groupOf c') b' l' (dimOf c')) = x b' c' l'
    rw [quantizedGrouped_entry hM emb x (groupOf c') b' l' i' hi' (dimOf c')]
    have : xGrouped x (groupOf c') b' l' (dimOf c') = x b' c' l' := by
      show x b' (chanOf (groupOf c') (dimOf c')) l' = _
      rw [chanOf_eta]
    rw [this]
    ring
  · unfold vqCommitmentLoss mseLoss
    have hz : ∀ n' : Fin N, ∀ b' : Fin B, ∀ l' : Fin L, ∀ d : Fin D,
        (xGrouped x n' b' l' d - quantizedGrouped hM emb x n' b' l' d) ^ 2
          = 0 := by
      intro n' b' l' d
      obtain ⟨i', hi'⟩ := hx n' b' l'
      rw [quantizedGrouped_entry hM emb x n' b' l' i' hi' d]
      ring
    rw [Finset.sum_congr rfl fun n' _ => Finset.sum_congr rfl fun b' _ =>
      Finset.sum_congr rfl fun l' _ => Finset.sum_congr rfl fun d _ =>
        hz n' b' l' d]
    simp

/-- A codebook whose two entries of the single group hold the same value. -/
def embDup : Fin 1 → Fin 2 → Fin 1 → ℚ := fun _ _ _ => 5

/-- An input whose single vector equals codebook entry 1 (and also entry 0)
of `embDup`. -/
def xDup : Fin 1 → Fin (1 * 1) → Fin 1 → ℚ := fun _ _ _ => 5

/-- Counterexample to C10 as stated: with a duplicated codebook entry, an
input vector exactly equal to entry 1 is assigned index 0, not 1 —
`torch.argmin` breaks the distance tie by the lowest index. -/
theorem C10_counterexample :
    xGrouped xDup 0 0 0 0 = embDup 0 1 0
    ∧ vqIndices (Nat.succ_pos 1) embDup xDup 0 0 0 = 0
    ∧ ((0 : Fin 2) ≠ 1) :=
  ⟨rfl,
    vqIndices_entry_first (Nat.succ_pos 1) embDup xDup 0 0 0 0
      (funext fun _ => rfl) (fun j hj => (Nat.not_lt_zero j.val hj).elim),
    by decide⟩

/-- Closed witness instantiating `C10_amended_frozen_codebook_idempotent`. -/
theorem C10_witness :
    ((∀ n b l, ∃ i, (fun d => xGrouped xDup n b l d) = embDup n i)
      ∧ (fun d => xGrouped xDup 0 0 0 d) = embDup 0 0
      ∧ (∀ j, j < (0 : Fin 2) → embDup 0 j ≠ embDup 0 0))
    ∧ ((∀ (y : Fin 1 → Fin (1 * 1) → Fin 1 → ℚ),
        vqForwardQuantized (Nat.succ_pos 1) embDup
            (vqForwardQuantized (Nat.succ_pos 1) embDup y)
          = vqForwardQuantized (Nat.succ_pos 1) embDup y)
      ∧ vqForwardQuantized (Nat.succ_pos 1) embDup xDup = xDup
      ∧ vqCommitmentLoss (Nat.succ_pos 1) (1/4) embDup xDup = 0
      ∧ vqIndices (Nat.succ_pos 1) embDup xDup 0 0 0 = 0) :=
  ⟨⟨fun _ _ _ => ⟨0, funext fun _ => rfl⟩, funext fun _ => rfl,
      fun j hj => (Nat.not_lt_zero j.val hj).elim⟩,
    C10_amended_frozen_codebook_idempotent (Nat.succ_pos 1) (1/4)
      embDup xDup 0 0 0 0
      (fun _ _ _ => ⟨0, funext fun _ => rfl⟩) (funext fun _ => rfl)
      (fun j hj => (Nat.not_lt_zero j.val hj).elim)⟩

/-! ## CPC negative sampling: time indices (lines 215–226) -/

/-- Lines 225–226 applied to one position: a random offset `r` (drawn by
`torch.randint(1, length, …)`) is added to the position `t` (`+= arange`) and
reduced `% length` (`torch.remainder`). -/
def negSampleTime (length t r : ℕ) : ℕ := (r + t) % length

/-- The whole `seq_index` tensor: one sampled time per
(speaker, utterance, negative-slot, time) tuple, from the offset tensor
`offs` whose entries `torch.randint` draws from `[1, length)`. -/
def seqIndexTensor {S U NN len : ℕ}
    (offs : Fin S → Fin U → Fin NN → Fin len → ℕ)
    (s : Fin S) (u : Fin U) (j : Fin NN) (t : Fin len) : ℕ :=
  negSampleTime len t.val (offs s u j t)

/-- Claim C1 — for a window of length `T − K ≥ 2` and any offset tensor with
entries in `[1, T − K)` (the range `torch.randint(1, length, …)` draws from),
the sampled time index differs from the true time index at every
(speaker, utterance, negative-slot, time) tuple. -/
theorem C1_sampled_time_never_true_time {S U NN T K : ℕ}
    (offs : Fin S → Fin U → Fin NN → Fin (T - K) → ℕ)
    (hlen : 2 ≤ T - K)
    (hoffs : ∀ s u j t, 1 ≤ offs s u j t ∧ offs s u j t < T - K) :
    ∀ s u j t, seqIndexTensor offs s u j t ≠ t.val := by
  intro s u j t h
  obtain ⟨h1, h2⟩ := hoffs s u j t
  have ht := t.isLt
  unfold seqIndexTensor negSampleTime at h
  rcases Nat.lt_or_ge (offs s u j t + t.val) (T - K) with hc | hc
  · rw [Nat.mod_eq_of_lt hc] at h
    omega
  · have hlt : offs s u j t + t.val - (T - K) < T - K := by omega
    have hmod : (offs s u j t + t.val) % (T - K)
        = offs s u j t + t.val - (T - K) := by
      rw [Nat.mod_eq_sub_mod hc, Nat.mod_eq_of_lt hlt]
    rw [hmod] at h
    omega

/-- Closed witness instantiating `C1_sampled_time_never_true_time`
(`T = 3`, `K = 1`, window length 2, offset constantly 1). -/
theorem C1_witness :
    (2 ≤ 3 - 1)
    ∧ (∀ (s u j : Fin 1) (t : Fin (3 - 1)),
        1 ≤ (fun (_ : Fin 1) (_ : Fin 1) (_ : Fin 1) (_ : Fin (3 - 1)) => 1)
            s u j t
        ∧ (fun (_ : Fin 1) (_ : Fin 1) (_ : Fin 1) (_ : Fin (3 - 1)) => 1)
            s u j t < 3 - 1)
    ∧ (∀ (s u j : Fin 1) (t : Fin (3 - 1)),
        seqIndexTensor
          (fun (_ : Fin 1) (_ : Fin 1) (_ : Fin 1) (_ : Fin (3 - 1)) => 1)
          s u j t ≠ t.val) :=
  ⟨by omega, fun _ _ _ _ => ⟨le_refl 1, Nat.one_lt_two⟩,
    C1_sampled_time_never_true_time
      (fun _ _ _ _ => 1) (by omega)
      (fun _ _ _ _ => ⟨le_refl 1, Nat.one_lt_two⟩)⟩

/-! ## The causal mask and its single-slot cache (lines 153–159, 188–189) -/

/-- The two float values the mask tensor holds: `0.0` and minus infinity. -/
inductive MaskVal where
  | zero : MaskVal
  | negInf : MaskVal
deriving DecidableEq

/-- Model of `torch.triu(torch.ones(sz, sz))` at `(i, j)`: 1 on and above the
diagonal, 0 below. -/
def triuOnes (i j : ℕ) : ℚ := if i ≤ j then 1 else 0

/-- Model of `(torch.triu(torch.ones(sz, sz)) == 1).transpose(0, 1)` at `(i, j)`. -/
def maskKeep (i j : ℕ) : Bool := decide (triuOnes j i = 1)

/-- Model of `generate_square_subsequent_mask(sz)`: `0.0` where the transposed
boolean mask is true, minus infinity where it is false. -/
def generate_square_subsequent_mask (sz : ℕ) : Fin sz → Fin sz → MaskVal :=
  fun i j => if maskKeep i.val j.val then MaskVal.zero else MaskVal.negInf

/-- Lines 188–189: `if self.mask is None: self.mask = generate_…(c.size(0))` —
the stored mask after a forward call, given the stored mask before it
(`None` when the module is fresh). -/
def maskAfterCall (sz : ℕ)
    (stored : Option (Fin sz → Fin sz → MaskVal)) :
    Option (Fin sz → Fin sz → MaskVal) :=
  match stored with
  | none => some (generate_square_subsequent_mask sz)
  | some m => some m

/-- Claim C4 — the causal mask is computed from the context length alone on the
first call (`generate_square_subsequent_mask` takes only `sz`), any stored
mask is reused unchanged by later calls, and its entry `(i, j)` is `0` when
`j ≤ i` and `−∞` otherwise. -/
theorem C4_mask_cached_once_and_causal (sz : ℕ) :
    maskAfterCall sz none = some (generate_square_subsequent_mask sz)
    ∧ (∀ m, maskAfterCall sz (some m) = some m)
    ∧ (∀ i j : Fin sz, generate_square_subsequent_mask sz i j
        = if j ≤ i then MaskVal.zero else MaskVal.negInf) := by
  refine ⟨rfl, fun m => rfl, fun i j => ?_⟩
  unfold generate_square_subsequent_mask maskKeep triuOnes
  by_cases h : j ≤ i
  · have hv : j.val ≤ i.val := h
    simp [hv, h]
  · have hv : ¬ j.val ≤ i.val := fun hc => h hc
    simp [hv, h]

/-! ## CPC negative sampling: speaker and utterance axes (lines 203–231) -/

/-- The broadcast of `speaker_index = arange(S).view(-1, 1, 1, 1)` to the
advanced-indexing result shape `(S, U, n_negatives, length)`: coordinate
`(s, u, j, t)` reads speaker `s`. -/
def speakerIndexB {S U NN len : ℕ} (s : Fin S) (_ : Fin U) (_ : Fin NN)
    (_ : Fin len) : Fin S := s

/-- The broadcast of `batch_index.view(1, U, n_negatives, 1)` — one uniform
draw per (utterance, negative-slot) pair — to the result shape: coordinate
`(s, u, j, t)` reads draw `(u, j)`, independent of `s` and `t`. -/
def batchIndexB {S U NN len : ℕ} (bi : Fin U → Fin NN → Fin U)
    (_ : Fin S) (u : Fin U) (j : Fin NN) (_ : Fin len) : Fin U := bi u j

/-- Line 231: `z_negatives = z_shift[speaker_index, batch_index, seq_index, :]`
under PyTorch advanced-indexing broadcasting of the three index tensors. -/
def zNegatives {S U NN len D : ℕ}
    (zshift : Fin S → Fin U → Fin len → Fin D → ℝ)
    (bi : Fin U → Fin NN → Fin U)
    (si : Fin S → Fin U → Fin NN → Fin len → Fin len)
    (s : Fin S) (u : Fin U) (j : Fin NN) (t : Fin len) (d : Fin D) : ℝ :=
  zshift (speakerIndexB s u j t) (batchIndexB bi s u j t) (si s u j t) d

/-- Claim C7 — every negative for a target at speaker `s` is read from the own
shifted latents of speaker `s` (two tensors agreeing on the slice of speaker
`s` yield identical negatives for `s`, and the speaker coordinate is `s`),
and the utterance index is a single draw per (utterance, negative-slot) pair,
shared across all speakers and time positions. -/
theorem C7_negatives_same_speaker_shared_utterance
    {S U NN len D : ℕ}
    (zshift zshift' : Fin S → Fin U → Fin len → Fin D → ℝ)
    (bi : Fin U → Fin NN → Fin U)
    (si : Fin S → Fin U → Fin NN → Fin len → Fin len)
    (s : Fin S)
    (hagree : ∀ u t d, zshift s u t d = zshift' s u t d) :
    (∀ u j t d, zNegatives zshift bi si s u j t d
      = zNegatives zshift' bi si s u j t d)
    ∧ (∀ (u : Fin U) (j : Fin NN) (t : Fin len), speakerIndexB s u j t = s)
    ∧ (∀ s' s'' : Fin S, ∀ (u : Fin U) (j : Fin NN), ∀ t t' : Fin len,
        batchIndexB bi s' u j t = batchIndexB bi s'' u j t') :=
  ⟨fun u j t d => hagree (bi u j) (si s u j t) d,
    fun _ _ _ => rfl, fun _ _ _ _ _ _ => rfl⟩

/-- Closed witness instantiating `C7_negatives_same_speaker_shared_utterance`. -/
theorem C7_witness :
    (∀ (u : Fin 1) (t : Fin 1) (d : Fin 1),
      (fun (_ : Fin 1) (_ : Fin 1) (_ : Fin 1) (_ : Fin 1) => (0 : ℝ)) 0 u t d
        = (fun (_ : Fin 1) (_ : Fin 1) (_ : Fin 1) (_ : Fin 1) => (0 : ℝ)) 0 u t d)
    ∧ ((∀ (u j t : Fin 1) (d : Fin 1),
        zNegatives (fun _ _ _ _ => (0 : ℝ))
            (fun (_ : Fin 1) (_ : Fin 1) => (0 : Fin 1))
            (fun (_ : Fin 1) (_ : Fin 1) (_ : Fin 1) (t : Fin 1) => t)
            0 u j t d
        = zNegatives (fun _ _ _ _ => (0 : ℝ))
            (fun (_ : Fin 1) (_ : Fin 1) => (0 : Fin 1))
            (fun (_ : Fin 1) (_ : Fin 1) (_ : Fin 1) (t : Fin 1) => t)
            0 u j t d)
      ∧ (∀ (u j t : Fin 1), speakerIndexB (0 : Fin 1) u j t = 0)
      ∧ (∀ (s' s'' : Fin 1) (u j : Fin 1) (t t' : Fin 1),
          batchIndexB (fun _ _ => (0 : Fin 1)) s' u j t
            = batchIndexB (fun _ _ => (0 : Fin 1)) s'' u j t')) :=
  ⟨fun _ _ _ => rfl,
    C7_negatives_same_speaker_shared_utterance
      (fun _ _ _ _ => (0 : ℝ)) (fun _ _ _ _ => (0 : ℝ))
      (fun (_ : Fin 1) (_ : Fin 1) => (0 : Fin 1))
      (fun (_ : Fin 1) (_ : Fin 1) (_ : Fin 1) (t : Fin 1) => t)
      0 (fun _ _ _ => rfl)⟩

/-! ## Raise/no-raise behaviour of `CPCLoss.forward` (C5)

The predictors, positional encoding and tensor plumbing are external
collaborators assumed total; the validations the loss itself performs are
`torch.randint(0, U, …)` and `torch.randint(1, length, …)` once per horizon
`k = 1 … K`, and the final `torch.stack(losses)` which requires a non-empty
list. `length = z.size(1) - n_prediction_steps` is Python integer
arithmetic, hence `ℤ`. -/

/-- Model of `torch.randint(low, high, …)`: it raises unless `low < high`. -/
def randint_check (low high : ℤ) : Except String Unit :=
  if low < high then Except.ok ()
  else Except.error "random_ expects from to be less than to"

/-- The `for k in range(1, K + 1)` loop, retaining the per-iteration
`randint(0, U, …)` (batch_index) and `randint(1, length, …)` (seq_index);
the first raised error aborts the call. -/
def loopChecks (U : ℕ) (length : ℤ) : ℕ → Except String Unit
  | 0 => Except.ok ()
  | k + 1 =>
    match randint_check 0 (U : ℤ) with
    | Except.error e => Except.error e
    | Except.ok _ =>
      match randint_check 1 length with
      | Except.error e => Except.error e
      | Except.ok _ => loopChecks U length k

/-- Model of `torch.stack(losses)`: it raises when `losses` is empty. -/
def stack_check (K : ℕ) : Except String Unit :=
  if 0 < K then Except.ok ()
  else Except.error "stack expects a non-empty TensorList"

/-- The raise/no-raise behaviour of one `CPCLoss.forward` call with sequence
length `T`, `K = n_prediction_steps` and `U = n_utterances_per_speaker`. -/
def cpcForwardRun (T K U : ℕ) : Except String Unit :=
  match loopChecks U ((T : ℤ) - (K : ℤ)) K with
  | Except.error e => Except.error e
  | Except.ok _ => stack_check K

theorem loopChecks_ok (U : ℕ) (length : ℤ) (K : ℕ) :
    loopChecks U length K = Except.ok ()
      ↔ (K = 0 ∨ ((0 : ℤ) < U ∧ 1 < length)) := by
  induction K with
  | zero => simp [loopChecks]
  | succ k ih =>
    by_cases h1 : (0 : ℤ) < U
    · by_cases h2 : (1 : ℤ) < length
      · simp [loopChecks, randint_check, h1, h2, ih]
      · simp [loopChecks, randint_check, h1, h2]
    · simp [loopChecks, randint_check, h1]

/-- Claim C5, amended — with at least one prediction horizon (`K ≥ 1`) and at
least one utterance per speaker, a `CPCLoss.forward` call succeeds iff the
shared window length `T − K` is at least 2; in particular it raises for every
`K ≥ T`, but also for `K = T − 1` (where `torch.randint(1, 1, …)` raises), so
"raises iff `K ≥ T`" is false. -/
theorem C5_amended_succeeds_iff_window_ge_two (T K U : ℕ)
    (hK : 1 ≤ K) (hU : 1 ≤ U) :
    cpcForwardRun T K U = Except.ok () ↔ 2 ≤ (T : ℤ) - (K : ℤ) := by
  unfold cpcForwardRun
  by_cases h2 : (1 : ℤ) < (T : ℤ) - (K : ℤ)
  · have hloop : loopChecks U ((T : ℤ) - (K : ℤ)) K = Except.ok () :=
      (loopChecks_ok U _ K).mpr (Or.inr ⟨by exact_mod_cast hU, h2⟩)
    rw [hloop]
    unfold stack_check
    rw [if_pos (by omega : 0 < K)]
    constructor
    · intro _
      omega
    · intro _
      rfl
  · have hloop : loopChecks U ((T : ℤ) - (K : ℤ)) K ≠ Except.ok () := by
      intro hc
      rcases (loopChecks_ok U _ K).mp hc with h | h
      · omega
      · exact h2 h.2
    constructor
    · intro hc
      cases hl : loopChecks U ((T : ℤ) - (K : ℤ)) K with
      | ok u => exact absurd (by cases u; exact hl) hloop
      | error e =>
        rw [hl] at hc
        exact Except.noConfusion hc
    · intro hc
      omega

/-- Counterexample to C5 as stated: `T = 3`, `K = 2` has `K < T`, yet the
call raises (`length = 1`, and `torch.randint(1, 1, …)` is invalid). -/
theorem C5_counterexample :
    2 < 3 ∧ cpcForwardRun 3 2 2 ≠ Except.ok () :=
  ⟨by omega, fun h => Except.noConfusion h⟩

/-- Closed witness instantiating `C5_amended_succeeds_iff_window_ge_two`. -/
theorem C5_witness :
    (1 ≤ 2 ∧ 1 ≤ 3)
    ∧ (cpcForwardRun 10 2 3 = Except.ok () ↔ 2 ≤ (10 : ℤ) - (2 : ℤ)) :=
  ⟨⟨by omega, by omega⟩,
    C5_amended_succeeds_iff_window_ge_two 10 2 3 (by omega) (by omega)⟩

/-! ## Per-horizon scores, cross-entropy and accuracy (lines 233–256) -/

/-- Line 233: `zs = torch.cat((z_shift.unsqueeze(2), z_negatives), dim=2)` —
candidate 0 is the true future latent, candidates `1 … n_negatives` are the
sampled negatives. -/
def catCandidates {S U NN len D : ℕ}
    (zshift : Fin S → Fin U → Fin len → Fin D → ℝ)
    (zneg : Fin S → Fin U → Fin NN → Fin len → Fin D → ℝ)
    (s : Fin S) (u : Fin U) (j : Fin (NN + 1)) (t : Fin len) (d : Fin D) : ℝ :=
  if h : j.val = 0 then zshift s u t d
  else zneg s u ⟨j.val - 1, by have := j.isLt; omega⟩ t d

/-- Line 235: `f = torch.sum(zs * Wc.unsqueeze(2) / math.sqrt(self.z_dim),
dim=-1)` — the scaled dot-product score of each candidate. -/
noncomputable def scoreTensor {S U NN len D : ℕ}
    (zs : Fin S → Fin U → Fin (NN + 1) → Fin len → Fin D → ℝ)
    (Wc : Fin S → Fin U → Fin len → Fin D → ℝ)
    (s : Fin S) (u : Fin U) (j : Fin (NN + 1)) (t : Fin len) : ℝ :=
  ∑ d, zs s u j t d * Wc s u t d / Real.sqrt D

/-- Summand `-log softmax(g)[y]` of `F.cross_entropy` at one position. -/
noncomputable def ceLogitTerm {C : ℕ} (g : Fin C → ℝ) (y : Fin C) : ℝ :=
  Real.log (∑ c, Real.exp (g c)) - g y

theorem ceLogitTerm_nonneg {C : ℕ} (g : Fin C → ℝ) (y : Fin C) :
    0 ≤ ceLogitTerm g y := by
  unfold ceLogitTerm
  have h1 : Real.exp (g y) ≤ ∑ c, Real.exp (g c) :=
    Finset.single_le_sum (fun c _ => (Real.exp_pos (g c)).le) (Finset.mem_univ y)
  have h2 : Real.log (Real.exp (g y)) ≤ Real.log (∑ c, Real.exp (g c)) :=
    Real.log_le_log (Real.exp_pos _) h1
  rw [Real.log_exp] at h2
  linarith

/-- Line 247: `F.cross_entropy(f, labels)` on `f` of shape
`(S·U, NN + 1, len)` with all target labels 0: the mean over the `S·U·len`
positions of `-log softmax` at class 0. -/
noncomputable def cpcHorizonLoss {S U NN len : ℕ}
    (f : Fin S → Fin U → Fin (NN + 1) → Fin len → ℝ) : ℝ :=
  (∑ s, ∑ u, ∑ t, ceLogitTerm (fun j => f s u j t) 0) / (S * U * len)

theorem cpcHorizonLoss_nonneg {S U NN len : ℕ}
    (f : Fin S → Fin U → Fin (NN + 1) → Fin len → ℝ) :
    0 ≤ cpcHorizonLoss f := by
  unfold cpcHorizonLoss
  refine div_nonneg ?_ (by positivity)
  refine Finset.sum_nonneg fun s _ => Finset.sum_nonneg fun u _ =>
    Finset.sum_nonneg fun t _ => ceLogitTerm_nonneg _ 0

/-- Model of `torch.argmax` along the class axis (first maximal index on ties). -/
noncomputable def argmaxFin {C : ℕ} (hC : 0 < C) (g : Fin C → ℝ) : Fin C :=
  ⟨argmaxAux (fun k => g ⟨k % C, Nat.mod_lt k hC⟩) (C - 1) % C,
    Nat.mod_lt _ hC⟩

/-- Lines 249–250:
`accuracy = torch.mean((f.argmax(dim=1) == labels).float())`. -/
noncomputable def cpcHorizonAcc {S U NN len : ℕ}
    (f : Fin S → Fin U → Fin (NN + 1) → Fin len → ℝ) : ℝ :=
  (∑ s, ∑ u, ∑ t,
    if argmaxFin (Nat.succ_pos NN) (fun j => f s u j t) = 0 then (1 : ℝ) else 0)
    / (S * U * len)

theorem cpcHorizonAcc_nonneg {S U NN len : ℕ}
    (f : Fin S → Fin U → Fin (NN + 1) → Fin len → ℝ) :
    0 ≤ cpcHorizonAcc f := by
  unfold cpcHorizonAcc
  refine div_nonneg ?_ (by positivity)
  refine Finset.sum_nonneg fun s _ => Finset.sum_nonneg fun u _ =>
    Finset.sum_nonneg fun t _ => ?_
  split <;> norm_num

theorem cpcHorizonAcc_le_one {S U NN len : ℕ}
    (hS : 0 < S) (hU : 0 < U) (hlen : 0 < len)
    (f : Fin S → Fin U → Fin (NN + 1) → Fin len → ℝ) :
    cpcHorizonAcc f ≤ 1 := by
  unfold cpcHorizonAcc
  have hden : (0 : ℝ) < (S : ℝ) * U * len := by
    have h1 : (0 : ℝ) < (S : ℝ) := by exact_mod_cast hS
    have h2 : (0 : ℝ) < (U : ℝ) := by exact_mod_cast hU
    have h3 : (0 : ℝ) < (len : ℝ) := by exact_mod_cast hlen
    positivity
  rw [div_le_one hden]
  have hbound : ∑ s : Fin S, ∑ u : Fin U, ∑ t : Fin len,
      (if argmaxFin (Nat.succ_pos NN) (fun j => f s u j t) = 0
        then (1 : ℝ) else 0)
      ≤ ∑ _s : Fin S, ∑ _u : Fin U, ∑ _t : Fin len, (1 : ℝ) := by
    refine Finset.sum_le_sum fun s _ => Finset.sum_le_sum fun u _ =>
      Finset.sum_le_sum fun t _ => ?_
    split <;> norm_num
  calc ∑ s : Fin S, ∑ u : Fin U, ∑ t : Fin len,
      (if argmaxFin (Nat.succ_pos NN) (fun j => f s u j t) = 0
        then (1 : ℝ) else 0)
      ≤ ∑ _s : Fin S, ∑ _u : Fin U, ∑ _t : Fin len, (1 : ℝ) := hbound
    _ = (S : ℝ) * U * len := by
      simp [Finset.sum_const, Finset.card_univ, mul_assoc]
    _ ≤ (S : ℝ) * U * len := le_refl _

/-- Line 255: `loss = torch.stack(losses).mean()`. -/
noncomputable def cpcTotalLoss {K : ℕ} (ls : Fin K → ℝ) : ℝ := (∑ k, ls k) / K

/-- The `accuracies` list accumulated over the horizons `k = 1 … K`. -/
def cpcAccuracies {K : ℕ} (accs : Fin K → ℝ) : List ℝ :=
  (List.finRange K).map accs

/-- Claim C9 — for a successful CPC-loss call: the accuracies form a list of
exactly `K` values, each in `[0, 1]`; the returned loss is the mean of the
`K` per-horizon cross-entropy losses (each over `n_negatives + 1` candidates
with the true candidate at class index 0, so each per-horizon loss and the
mean are ≥ 0). -/
theorem C9_loss_mean_of_horizons_accuracies_bounded
    {S U NN len D K : ℕ}
    (zshiftK : Fin K → Fin S → Fin U → Fin len → Fin D → ℝ)
    (znegK : Fin K → Fin S → Fin U → Fin NN → Fin len → Fin D → ℝ)
    (WcK : Fin K → Fin S → Fin U → Fin len → Fin D → ℝ)
    (hS : 0 < S) (hU : 0 < U) (hlen : 0 < len) :
    (cpcAccuracies (fun k => cpcHorizonAcc
        (scoreTensor (catCandidates (zshiftK k) (znegK k)) (WcK k)))).length = K
    ∧ (∀ a ∈ cpcAccuracies (fun k => cpcHorizonAcc
        (scoreTensor (catCandidates (zshiftK k) (znegK k)) (WcK k))),
        0 ≤ a ∧ a ≤ 1)
    ∧ cpcTotalLoss (fun k => cpcHorizonLoss
        (scoreTensor (catCandidates (zshiftK k) (znegK k)) (WcK k)))
      = (∑ k, cpcHorizonLoss
          (scoreTensor (catCandidates (zshiftK k) (znegK k)) (WcK k))) / K
    ∧ (∀ k, 0 ≤ cpcHorizonLoss
        (scoreTensor (catCandidates (zshiftK k) (znegK k)) (WcK k)))
    ∧ 0 ≤ cpcTotalLoss (fun k => cpcHorizonLoss
        (scoreTensor (catCandidates (zshiftK k) (znegK k)) (WcK k)))
    ∧ (∀ k s u t d, catCandidates (zshiftK k) (znegK k) s u 0 t d
        = zshiftK k s u t d) := by
  refine ⟨?_, ?_, rfl, ?_, ?_, ?_⟩
  · simp [cpcAccuracies]
  · intro a ha
    obtain ⟨k, _, hk⟩ := List.mem_map.mp ha
    subst hk
    exact ⟨cpcHorizonAcc_nonneg _, cpcHorizonAcc_le_one hS hU hlen _⟩
  · intro k
    exact cpcHorizonLoss_nonneg _
  · unfold cpcTotalLoss
    refine div_nonneg ?_ (by positivity)
    exact Finset.sum_nonneg fun k _ => cpcHorizonLoss_nonneg _
  · intro k s u t d
    simp [catCandidates]

/-- All-zero shifted latents (`K = S = U = len = D = 1`) for the witness. -/
def zshiftW : Fin 1 → Fin 1 → Fin 1 → Fin 1 → Fin 1 → ℝ := fun _ _ _ _ _ => 0

/-- All-zero negatives (`K = S = U = NN = len = D = 1`) for the witness. -/
def znegW : Fin 1 → Fin 1 → Fin 1 → Fin 1 → Fin 1 → Fin 1 → ℝ :=
  fun _ _ _ _ _ _ => 0

/-- All-zero predictor outputs (`K = S = U = len = D = 1`) for the witness. -/
def wcW : Fin 1 → Fin 1 → Fin 1 → Fin 1 → Fin 1 → ℝ := fun _ _ _ _ _ => 0

/-- Closed witness instantiating
`C9_loss_mean_of_horizons_accuracies_bounded`. -/
theorem C9_witness :
    (0 < 1 ∧ 0 < 1 ∧ 0 < 1)
    ∧ ((cpcAccuracies (fun k => cpcHorizonAcc
        (scoreTensor (catCandidates (zshiftW k) (znegW k)) (wcW k)))).length = 1
    ∧ (∀ a ∈ cpcAccuracies (fun k => cpcHorizonAcc
        (scoreTensor (catCandidates (zshiftW k) (znegW k)) (wcW k))),
        0 ≤ a ∧ a ≤ 1)
    ∧ cpcTotalLoss (fun k => cpcHorizonLoss
        (scoreTensor (catCandidates (zshiftW k) (znegW k)) (wcW k)))
      = (∑ k, cpcHorizonLoss
          (scoreTensor (catCandidates (zshiftW k) (znegW k)) (wcW k)))
        / ((1 : ℕ) : ℝ)
    ∧ (∀ k, 0 ≤ cpcHorizonLoss
        (scoreTensor (catCandidates (zshiftW k) (znegW k)) (wcW k)))
    ∧ 0 ≤ cpcTotalLoss (fun k => cpcHorizonLoss
        (scoreTensor (catCandidates (zshiftW k) (znegW k)) (wcW k)))
    ∧ (∀ (k s u t d : Fin 1), catCandidates (zshiftW k) (znegW k) s u 0 t d
        = zshiftW k s u t d)) :=
  ⟨⟨Nat.succ_pos 0, Nat.succ_pos 0, Nat.succ_pos 0⟩,
    C9_loss_mean_of_horizons_accuracies_bounded zshiftW znegW wcW
      (Nat.succ_pos 0) (Nat.succ_pos 0) (Nat.succ_pos 0)⟩

/-! ## Perplexity (lines 51–54) -/

/-- Lines 51–52 for one group: given the per-code usage distribution
`avg_probs`, `perplexity = exp(-sum(avg_probs * log(avg_probs + 1e-10)))`. -/
noncomputable def perplexityGroup {M : ℕ} (p : Fin M → ℝ) : ℝ :=
  Real.exp (-∑ m, p m * Real.log (p m + 1e-10))

/-- Line 54, `perplexity.sum()`: the scalar the quantizer returns is the sum
of the per-group perplexities. -/
noncomputable def perplexityTotal {N M : ℕ} (p : Fin N → Fin M → ℝ) : ℝ :=
  ∑ n, perplexityGroup (p n)

/-- Line 51, `avg_probs = torch.mean(encodings, dim=1)`: the per-code usage
distribution induced by the assignment indices over the `B·L` positions. -/
noncomputable def avgProbs {B N M L : ℕ} (idx : Fin N → Fin B → Fin L → Fin M)
    (n : Fin N) (m : Fin M) : ℝ :=
  ((stepCounts (idx n) m : ℚ) : ℝ) / ((B * L : ℕ) : ℝ)

theorem perplexityGroup_ge {M : ℕ} (p : Fin M → ℝ)
    (h0 : ∀ m, 0 ≤ p m) (h1 : ∑ m, p m = 1) :
    ((1 : ℝ) + 1e-10)⁻¹ ≤ perplexityGroup p := by
  have hple : ∀ m, p m ≤ 1 := fun m =>
    h1 ▸ Finset.single_le_sum (fun i _ => h0 i) (Finset.mem_univ m)
  have hterm : ∀ m : Fin M, p m * Real.log (p m + 1e-10)
      ≤ p m * Real.log (1 + 1e-10) := by
    intro m
    refine mul_le_mul_of_nonneg_left ?_ (h0 m)
    refine Real.log_le_log (by have := h0 m; linarith) ?_
    have := hple m
    linarith
  have hsum : ∑ m, p m * Real.log (p m + 1e-10) ≤ Real.log (1 + 1e-10) := by
    calc ∑ m, p m * Real.log (p m + 1e-10)
        ≤ ∑ m, p m * Real.log (1 + 1e-10) := Finset.sum_le_sum fun m _ => hterm m
      _ = (∑ m, p m) * Real.log (1 + 1e-10) := by rw [Finset.sum_mul]
      _ = Real.log (1 + 1e-10) := by rw [h1, one_mul]
  unfold perplexityGroup
  have hexp : Real.exp (-Real.log (1 + 1e-10))
      ≤ Real.exp (-∑ m, p m * Real.log (p m + 1e-10)) :=
    Real.exp_le_exp.mpr (by linarith)
  rwa [Real.exp_neg, Real.exp_log (by norm_num : (0:ℝ) < 1 + 1e-10)] at hexp

theorem perplexityGroup_le_card {M : ℕ} (p : Fin M → ℝ) (hM : 1 ≤ M)
    (h0 : ∀ m, 0 ≤ p m) (h1 : ∑ m, p m = 1) :
    perplexityGroup p ≤ M := by
  have hMR : (1 : ℝ) ≤ (M : ℝ) := by exact_mod_cast hM
  have hMpos : (0 : ℝ) < M := by linarith
  have hstep : ∀ m : Fin M,
      p m * Real.log (((M : ℝ) * (p m + 1e-10))⁻¹)
        ≤ p m * (((M : ℝ) * (p m + 1e-10))⁻¹ - 1) := by
    intro m
    rcases eq_or_lt_of_le (h0 m) with h | h
    · rw [← h]
      simp
    · refine mul_le_mul_of_nonneg_left ?_ (le_of_lt h)
      refine Real.log_le_sub_one_of_pos (inv_pos.mpr ?_)
      have hd : (0 : ℝ) < p m + 1e-10 := by linarith
      positivity
  have hleft : ∑ m, p m * Real.log (((M : ℝ) * (p m + 1e-10))⁻¹)
      = -(∑ m, p m * Real.log (p m + 1e-10)) - Real.log M := by
    have hlog : ∀ m : Fin M, Real.log (((M : ℝ) * (p m + 1e-10))⁻¹)
        = -(Real.log M) - Real.log (p m + 1e-10) := by
      intro m
      have hd : (0 : ℝ) < p m + 1e-10 := by have := h0 m; linarith
      rw [Real.log_inv, Real.log_mul (ne_of_gt hMpos) (ne_of_gt hd)]
      ring
    rw [Finset.sum_congr rfl fun m _ => by rw [hlog m]]
    have hdist : ∀ m : Fin M,
        p m * (-(Real.log M) - Real.log (p m + 1e-10))
          = -(Real.log M) * p m - p m * Real.log (p m + 1e-10) := by
      intro m; ring
    rw [Finset.sum_congr rfl fun m _ => hdist m, Finset.sum_sub_distrib,
      ← Finset.mul_sum, h1]
    ring
  have hright : ∑ m, p m * (((M : ℝ) * (p m + 1e-10))⁻¹ - 1) ≤ 0 := by
    have hterm : ∀ m : Fin M, p m * (((M : ℝ) * (p m + 1e-10))⁻¹ - 1)
        = p m * ((M : ℝ) * (p m + 1e-10))⁻¹ - p m := by intro m; ring
    rw [Finset.sum_congr rfl fun m _ => hterm m, Finset.sum_sub_distrib, h1]
    have hsum1 : ∑ m, p m * ((M : ℝ) * (p m + 1e-10))⁻¹
        ≤ ∑ _m : Fin M, (M : ℝ)⁻¹ := by
      refine Finset.sum_le_sum fun m _ => ?_
      have hd : (0 : ℝ) < p m + 1e-10 := by have := h0 m; linarith
      have h2 : p m * (p m + 1e-10)⁻¹ ≤ 1 := by
        rw [← div_eq_mul_inv]
        exact div_le_one_of_le₀ (by linarith) (le_of_lt hd)
      calc p m * ((M : ℝ) * (p m + 1e-10))⁻¹
          = (M : ℝ)⁻¹ * (p m * (p m + 1e-10)⁻¹) := by
            rw [mul_inv]; ring
        _ ≤ (M : ℝ)⁻¹ * 1 := mul_le_mul_of_nonneg_left h2 (by positivity)
        _ = (M : ℝ)⁻¹ := by ring
    have hconst : ∑ _m : Fin M, (M : ℝ)⁻¹ = 1 := by
      rw [Finset.sum_const, Finset.card_univ, Fintype.card_fin, nsmul_eq_mul]
      field_simp
    linarith
  have hA : ∑ m, p m * Real.log (((M : ℝ) * (p m + 1e-10))⁻¹) ≤ 0 :=
    le_trans (Finset.sum_le_sum fun m _ => hstep m) hright
  rw [hleft] at hA
  unfold perplexityGroup
  calc Real.exp (-∑ m, p m * Real.log (p m + 1e-10))
      ≤ Real.exp (Real.log M) := Real.exp_le_exp.mpr (by linarith)
    _ = M := Real.exp_log hMpos

theorem perplexityGroup_uniform (M : ℕ) (hM : 1 ≤ M) :
    perplexityGroup (fun _ : Fin M => ((M : ℝ))⁻¹)
      = (((M : ℝ))⁻¹ + 1e-10)⁻¹ := by
  have hMpos : (0 : ℝ) < M := by exact_mod_cast Nat.lt_of_lt_of_le Nat.zero_lt_one hM
  unfold perplexityGroup
  have hsum : ∑ _m : Fin M, ((M : ℝ))⁻¹ * Real.log (((M : ℝ))⁻¹ + 1e-10)
      = Real.log (((M : ℝ))⁻¹ + 1e-10) := by
    rw [Finset.sum_const, Finset.card_univ, Fintype.card_fin, nsmul_eq_mul]
    rw [← mul_assoc, mul_inv_cancel₀ (ne_of_gt hMpos), one_mul]
  rw [hsum, Real.exp_neg, Real.exp_log (by positivity)]

theorem perplexityGroup_onehot {M : ℕ} (i : Fin M) :
    perplexityGroup (fun m => if m = i then (1 : ℝ) else 0)
      = ((1 : ℝ) + 1e-10)⁻¹ := by
  unfold perplexityGroup
  have hterm : ∀ m : Fin M, (if m = i then (1 : ℝ) else 0)
      * Real.log ((if m = i then (1 : ℝ) else 0) + 1e-10)
      = if m = i then Real.log (1 + 1e-10) else 0 := by
    intro m
    split <;> simp
  rw [Finset.sum_congr rfl fun m _ => hterm m]
  rw [Finset.sum_ite_eq' Finset.univ i fun _ => Real.log (1 + 1e-10)]
  rw [if_pos (Finset.mem_univ i), Real.exp_neg,
    Real.exp_log (by norm_num : (0:ℝ) < 1 + 1e-10)]

/-- Claim C8, amended — the per-group perplexity
`exp(-Σ p·log(p + 1e-10))` over a usage distribution `p` lies in
`[(1 + 1e-10)⁻¹, M]`; because of the `1e-10` inside the logarithm it equals
`(1 + 1e-10)⁻¹` (slightly below 1) when all mass is on one code and
`(M⁻¹ + 1e-10)⁻¹` (strictly below `M`) when usage is perfectly uniform; the
quantizer returns the sum of the per-group perplexities. -/
theorem C8_amended_perplexity_bounds {N M : ℕ} (p : Fin N → Fin M → ℝ)
    (hM : 1 ≤ M) (h0 : ∀ n m, 0 ≤ p n m) (h1 : ∀ n, ∑ m, p n m = 1) :
    (∀ n, ((1 : ℝ) + 1e-10)⁻¹ ≤ perplexityGroup (p n)
      ∧ perplexityGroup (p n) ≤ M)
    ∧ perplexityGroup (fun _ : Fin M => ((M : ℝ))⁻¹)
        = (((M : ℝ))⁻¹ + 1e-10)⁻¹
    ∧ (((M : ℝ))⁻¹ + 1e-10)⁻¹ < M
    ∧ (∀ i : Fin M, perplexityGroup (fun m => if m = i then (1 : ℝ) else 0)
        = ((1 : ℝ) + 1e-10)⁻¹)
    ∧ ((1 : ℝ) + 1e-10)⁻¹ < 1
    ∧ perplexityTotal p = ∑ n, perplexityGroup (p n) := by
  have hMpos : (0 : ℝ) < M := by
    exact_mod_cast Nat.lt_of_lt_of_le Nat.zero_lt_one hM
  refine ⟨fun n => ⟨perplexityGroup_ge (p n) (h0 n) (h1 n),
      perplexityGroup_le_card (p n) hM (h0 n) (h1 n)⟩,
    perplexityGroup_uniform M hM, ?_, fun i => perplexityGroup_onehot i,
    ?_, rfl⟩
  · have hlt : ((M : ℝ))⁻¹ < ((M : ℝ))⁻¹ + 1e-10 := by norm_num
    have := inv_strictAnti₀ (inv_pos.mpr hMpos) hlt
    rwa [inv_inv] at this
  · have hlt : (1 : ℝ) < 1 + 1e-10 := by norm_num
    exact inv_lt_one_of_one_lt₀ hlt

/-- On the all-zero input with the all-zero two-entry codebook, the single
input vector is assigned to entry 0. -/
theorem vqIndices_xZ :
    vqIndices (Nat.succ_pos 1) vqStateZ.embedding xZ 0 0 0 = 0 := by
  apply Fin.ext
  show argminAux (fun k => sqDist (fun d => xGrouped xZ 0 0 0 d)
    (vqStateZ.embedding 0 ⟨k % 2, Nat.mod_lt k (Nat.succ_pos 1)⟩)) (2 - 1) % 2
    = (0 : Fin 2).val
  simp [argminAux, sqDist, vqStateZ, xZ, xGrouped]

/-- Counterexample to C8 as stated: a valid quantizer input (one vector,
assigned entirely to code 0, so `avg_probs = (1, 0)` is a genuine usage
distribution) whose group perplexity is strictly below 1 — the claimed lower
bound `1` (and the claimed "equals 1 iff all mass on one code") fails
because of the `1e-10` inside the logarithm. -/
theorem C8_counterexample :
    (0 ≤ avgProbs (vqIndices (Nat.succ_pos 1) vqStateZ.embedding xZ) 0 0)
    ∧ (0 ≤ avgProbs (vqIndices (Nat.succ_pos 1) vqStateZ.embedding xZ) 0 1)
    ∧ (∑ m, avgProbs (vqIndices (Nat.succ_pos 1) vqStateZ.embedding xZ) 0 m = 1)
    ∧ perplexityGroup
        (avgProbs (vqIndices (Nat.succ_pos 1) vqStateZ.embedding xZ) 0) < 1 := by
  have hsc : ∀ m : Fin 2,
      stepCounts (vqIndices (Nat.succ_pos 1) vqStateZ.embedding xZ 0) m
        = if (0 : Fin 2) = m then (1 : ℚ) else 0 := by
    intro m
    unfold stepCounts
    rw [Fin.sum_univ_one, Fin.sum_univ_one, vqIndices_xZ]
  have hfun : avgProbs (vqIndices (Nat.succ_pos 1) vqStateZ.embedding xZ) 0
      = fun m : Fin 2 => if m = 0 then (1 : ℝ) else 0 := by
    funext m
    unfold avgProbs
    rw [hsc m]
    fin_cases m <;> norm_num
  rw [hfun]
  refine ⟨by norm_num, by norm_num, ?_, ?_⟩
  · rw [Fin.sum_univ_two]
    norm_num
  · rw [perplexityGroup_onehot (0 : Fin 2)]
    exact inv_lt_one_of_one_lt₀ (by norm_num)

/-- The uniform two-code usage distribution of a single group. -/
noncomputable def pHalf : Fin 1 → Fin 2 → ℝ := fun _ _ => 1 / 2

/-- Closed witness instantiating `C8_amended_perplexity_bounds`. -/
theorem C8_witness :
    ((1 ≤ 2) ∧ (∀ (n : Fin 1) (m : Fin 2), 0 ≤ pHalf n m)
      ∧ (∀ n : Fin 1, ∑ m, pHalf n m = 1))
    ∧ ((∀ n : Fin 1, ((1 : ℝ) + 1e-10)⁻¹ ≤ perplexityGroup (pHalf n)
        ∧ perplexityGroup (pHalf n) ≤ (2 : ℕ))
    ∧ perplexityGroup (fun _ : Fin 2 => (((2 : ℕ) : ℝ))⁻¹)
        = ((((2 : ℕ) : ℝ))⁻¹ + 1e-10)⁻¹
    ∧ ((((2 : ℕ) : ℝ))⁻¹ + 1e-10)⁻¹ < ((2 : ℕ) : ℝ)
    ∧ (∀ i : Fin 2, perplexityGroup (fun m => if m = i then (1 : ℝ) else 0)
        = ((1 : ℝ) + 1e-10)⁻¹)
    ∧ ((1 : ℝ) + 1e-10)⁻¹ < 1
    ∧ perplexityTotal pHalf = ∑ n, perplexityGroup (pHalf n)) :=
  ⟨⟨by omega, fun _ _ => by norm_num [pHalf],
      fun _ => by rw [Fin.sum_univ_two]; norm_num [pHalf]⟩,
    C8_amended_perplexity_bounds pHalf (by omega)
      (fun _ _ => by norm_num [pHalf])
      (fun _ => by rw [Fin.sum_univ_two]; norm_num [pHalf])⟩

end VQCPC
